import Mathlib

/-!
Verification of the query-history capture/read pipeline
(`query_history_logger.py` / `query_history_reader.py`).

Shallow embedding conventions:
  * An instant in time is an `Int` (seconds since an arbitrary epoch);
    `timedelta(hours=h)` is `h * 3600` seconds.
  * The string produced by `datetime.isoformat` is modelled by `TimeStr`:
    ISO strings produced from instants are in bijection with instants, and
    any other string fails to parse (`datetime.fromisoformat` raises).
  * A line of the JSONL log file is a `LogLine`: either the valid JSON
    encoding of an `Entry` (serialization of a well-typed record is a
    bijection, modelling `json.dumps`/`json.loads`), or a malformed line,
    on which `json.loads` raises.
  * A fallible Python call is an `Except`; `capture_and_log` catches every
    exception of the source accessor, which we model by passing the
    accessor outcome in as an `Except` value.
  * The console is a list of emitted messages.
-/

namespace QueryHistory

/-- Model of the strings produced/consumed by `datetime.isoformat` /
`datetime.fromisoformat`: a valid ISO rendering of an instant, or a string
that is not a valid timestamp. -/
inductive TimeStr where
  | iso (t : Int)
  | invalid (s : String)
deriving DecidableEq

/-- Model of `datetime.isoformat` on the instant `t`. -/
def isoformat (t : Int) : TimeStr := TimeStr.iso t

/-- Model of `datetime.fromisoformat`: recovers the instant from a valid
ISO string and fails (raises `ValueError`) otherwise. -/
def fromisoformat : TimeStr → Option Int
  | TimeStr.iso t => some t
  | TimeStr.invalid _ => none

/-- One row returned by the source accessor `get_query_history`: the
fixed-width tuple `(execution_count, creation_time, last_execution_time,
cpu_time_ms, elapsed_time_ms, logical_reads, logical_writes, query_text)`.
The two source timestamps are passed through `str(...)` by the logger, so
they are modelled as the resulting strings. -/
structure QueryRow where
  execution_count : Int
  creation_time : String
  last_execution_time : String
  cpu_time_ms : Int
  elapsed_time_ms : Int
  logical_reads : Int
  logical_writes : Int
  query_text : String
deriving DecidableEq

/-- The record written to the JSONL log file by `capture_and_log`
(the dict built at `query_history_logger.py` lines 29-39). -/
structure Entry where
  captured_at : TimeStr
  execution_count : Int
  creation_time : String
  last_execution_time : String
  cpu_time_ms : Int
  elapsed_time_ms : Int
  logical_reads : Int
  logical_writes : Int
  query_text : String
deriving DecidableEq

/-- One line of the log file: either the valid JSON encoding of an entry,
or a malformed line (not valid JSON). -/
inductive LogLine where
  | good (e : Entry)
  | bad (s : String)
deriving DecidableEq

/-- The entry built from one source row at `query_history_logger.py`
lines 29-39: stamp with the tick timestamp and truncate the query text to
500 characters (`str(query[7])[:500]`). -/
def mkEntry (timestamp : TimeStr) (q : QueryRow) : Entry :=
  { captured_at := timestamp
    execution_count := q.execution_count
    creation_time := q.creation_time
    last_execution_time := q.last_execution_time
    cpu_time_ms := q.cpu_time_ms
    elapsed_time_ms := q.elapsed_time_ms
    logical_reads := q.logical_reads
    logical_writes := q.logical_writes
    query_text := q.query_text.take 500 }

/-- `capture_and_log` (`query_history_logger.py` lines 21-48): on a tick at
instant `now`, with the outcome `source` of `get_query_history(top_n=100)`,
transform the log file contents.  The timestamp is taken once before the
per-record loop; each record is appended as one line; any exception from
the source accessor is caught, so the file is returned unchanged. -/
def capture_and_log (now : Int) (source : Except String (List QueryRow))
    (file : List LogLine) : List LogLine :=
  match source with
  | Except.error _ => file
  | Except.ok queries =>
    let timestamp := isoformat now
    queries.foldl (fun f query => f ++ [LogLine.good (mkEntry timestamp query)]) file

/-- The capture loop (`query_history_logger.py` lines 61-64 and
`query_history_service.py` lines 58-79): run `capture_and_log` once per
tick.  A tick is the pair of its capture instant and the outcome of the
source accessor at that tick. -/
def runLoop (ticks : List (Int × Except String (List QueryRow)))
    (file : List LogLine) : List LogLine :=
  ticks.foldl (fun f p => capture_and_log p.1 p.2 f) file

/-- The search-text filter at `query_history_reader.py` line 35:
`if search_text and search_text.lower() not in entry["query_text"].lower():
continue`.  An absent or empty (falsy) `search_text` filters nothing. -/
def searchPass (searchText : Option String) (e : Entry) : Bool :=
  match searchText with
  | none => true
  | some s =>
    if s = "" then true
    else decide (s.toLower.toList <:+: e.query_text.toLower.toList)

/-- The CPU-threshold filter at `query_history_reader.py` line 38:
`if min_cpu_ms and entry["cpu_time_ms"] < min_cpu_ms: continue`.  An absent
or zero (falsy) `min_cpu_ms` filters nothing. -/
def cpuPass (minCpuMs : Option Int) (e : Entry) : Bool :=
  match minCpuMs with
  | none => true
  | some m =>
    if m = 0 then true
    else decide (m ≤ e.cpu_time_ms)

/-- Whether the reader keeps the entry `e` whose `captured_at` parsed to
the instant `t` (`query_history_reader.py` lines 31-39): the entry is
skipped when `captured_at < cutoff_time` and otherwise passes the two
optional filters. -/
def keepEntry (cutoff : Int) (searchText : Option String) (minCpuMs : Option Int)
    (e : Entry) (t : Int) : Bool :=
  decide (cutoff ≤ t) && searchPass searchText e && cpuPass minCpuMs e

/-- An exception raised while reading the log: `json.loads` failing on a
malformed line, or `datetime.fromisoformat` failing on a bad timestamp. -/
inductive ReadError where
  | jsonDecode (line : String)
  | badTimestamp
deriving DecidableEq

/-- The per-line loop of `read_query_history`
(`query_history_reader.py` lines 26-41): parse each line, parse its
`captured_at`, skip entries before the cutoff, apply the filters, and
collect the survivors in file order.  A parse failure propagates. -/
def processLines (cutoff : Int) (searchText : Option String) (minCpuMs : Option Int) :
    List LogLine → Except ReadError (List Entry)
  | [] => Except.ok []
  | LogLine.bad s :: _ => Except.error (ReadError.jsonDecode s)
  | LogLine.good e :: rest =>
    match fromisoformat e.captured_at with
    | none => Except.error ReadError.badTimestamp
    | some t =>
      match processLines cutoff searchText minCpuMs rest with
      | Except.error err => Except.error err
      | Except.ok es =>
        Except.ok (if keepEntry cutoff searchText minCpuMs e t then e :: es else es)

/-- What a call of `read_query_history` produces: the returned list of
entries and the console messages it printed. -/
structure ReadResult where
  entries : List Entry
  console : List String
deriving DecidableEq

/-- `read_query_history` (`query_history_reader.py` lines 12-46): compute
the cutoff `now - hours_back`, scan the log file (modelled as
`Option (List LogLine)`, `none` being a missing file), and return the
entries passing the window and the optional filters.  A missing file is
caught (`FileNotFoundError`) and yields an empty list plus a console
notice; any other error propagates. -/
def read_query_history (now : Int) (hours_back : Int) (search_text : Option String)
    (min_cpu_ms : Option Int) (file : Option (List LogLine)) :
    Except ReadError ReadResult :=
  let cutoff := now - hours_back * 3600
  match file with
  | none =>
    Except.ok { entries := []
                console := ["Log file not found. Run query_history_logger.py first."] }
  | some lines =>
    match processLines cutoff search_text min_cpu_ms lines with
    | Except.error err => Except.error err
    | Except.ok es => Except.ok { entries := es, console := [] }

/-- The grouping key of `summarize_queries`
(`query_history_reader.py` line 57): the first 100 characters of the
query text. -/
def queryKey (e : Entry) : String := e.query_text.take 100

/-- One step of building `query_groups`: append the entry to its group if
the key is already present (Python dicts preserve insertion order), and
otherwise add a fresh group at the end (`defaultdict(list)`). -/
def insertGroup : List (String × List Entry) → String → Entry → List (String × List Entry)
  | [], key, e => [(key, [e])]
  | g :: rest, key, e =>
    if g.1 = key then (g.1, g.2 ++ [e]) :: rest
    else g :: insertGroup rest key e

/-- The `query_groups` dict of `summarize_queries`
(`query_history_reader.py` lines 55-58), as an insertion-ordered
association list. -/
def buildGroups (queries : List Entry) : List (String × List Entry) :=
  queries.foldl (fun gs q => insertGroup gs (queryKey q) q) []

/-- Insert a group into a list already sorted by descending size, keeping
it after every strictly larger group (so that the overall sort is stable,
as Python guarantees for `sorted`). -/
def insertDesc (g : String × List Entry) :
    List (String × List Entry) → List (String × List Entry)
  | [] => [g]
  | h :: t => if g.2.length < h.2.length then h :: insertDesc g t else g :: h :: t

/-- `sorted(query_groups.items(), key=lambda x: len(x[1]), reverse=True)`
(`query_history_reader.py` line 66): a stable sort by descending group
size, realised as a structural insertion sort. -/
def sortGroups : List (String × List Entry) → List (String × List Entry)
  | [] => []
  | g :: rest => insertDesc g (sortGroups rest)

/-- The figures printed for one group at `query_history_reader.py`
lines 68-72: the pattern, the execution count, the average CPU time
(`total_cpu / len(executions)`) and the total CPU time. -/
structure GroupStat where
  pattern : String
  execCount : Nat
  avgCpu : ℚ
  totalCpu : Int
deriving DecidableEq

/-- The statistics computed for one group. -/
def groupStat (g : String × List Entry) : GroupStat :=
  let total_cpu : Int := (g.2.map (fun e => e.cpu_time_ms)).sum
  { pattern := g.1
    execCount := g.2.length
    avgCpu := (total_cpu : ℚ) / (g.2.length : ℚ)
    totalCpu := total_cpu }

/-- Everything `summarize_queries` reports: total execution count, number
of distinct query patterns, and the statistics of the top (at most) 10
groups by frequency, in the order printed. -/
structure Summary where
  totalExecutions : Nat
  uniquePatterns : Nat
  topGroups : List GroupStat
deriving DecidableEq

/-- `summarize_queries` (`query_history_reader.py` lines 48-73): on an
empty list print nothing and return (`none`); otherwise group by
`queryKey`, sort the groups by descending frequency, and report the
statistics of the first 10. -/
def summarize_queries (queries : List Entry) : Option Summary :=
  if queries.isEmpty then none
  else
    let query_groups := buildGroups queries
    let sorted_groups := sortGroups query_groups
    some { totalExecutions := queries.length
           uniquePatterns := query_groups.length
           topGroups := (sorted_groups.take 10).map groupStat }

/-- Decode one log line the way the reader does: `json.loads` followed by
`fromisoformat` on the `captured_at` field; `none` when either raises. -/
def decodeLine : LogLine → Option (Entry × Int)
  | LogLine.bad _ => none
  | LogLine.good e => (fromisoformat e.captured_at).map (fun t => (e, t))

/-- The log lines one tick contributes to the file. -/
def tickLines (p : Int × Except String (List QueryRow)) : List LogLine :=
  match p.2 with
  | Except.error _ => []
  | Except.ok qs => qs.map (fun q => LogLine.good (mkEntry (isoformat p.1) q))

/-- All lines a run of the capture loop appends, tick by tick. -/
def producedLog (ticks : List (Int × Except String (List QueryRow))) : List LogLine :=
  (ticks.map tickLines).flatten

/-- The capture instants recorded in a file, in file order (the parsed
`captured_at` of each parseable entry line). -/
def fileTimes (file : List LogLine) : List Int :=
  file.filterMap (fun l => (decodeLine l).map Prod.snd)

/-- The capture instants one tick stamps on its records. -/
def tickTimes (p : Int × Except String (List QueryRow)) : List Int :=
  match p.2 with
  | Except.error _ => []
  | Except.ok qs => qs.map (fun _ => p.1)

/-- Formalisation of the spec notion of the trailing window used by the
reader claims: `captured_at` between `now - hours_back` and `now`. -/
def inWindow (now : Int) (hours_back : Int) (t : Int) : Prop :=
  now - hours_back * 3600 ≤ t ∧ t ≤ now

/-- What one log line contributes to the reader result: `none` if the line
is skipped, `some e` if the entry is kept. -/
def lineVal (cutoff : Int) (searchText : Option String) (minCpuMs : Option Int)
    (l : LogLine) : Option Entry :=
  match decodeLine l with
  | some p => if keepEntry cutoff searchText minCpuMs p.1 p.2 then some p.1 else none
  | none => none

/-- A sample source row used by concrete witnesses. -/
def sampleRow : QueryRow :=
  { execution_count := 3
    creation_time := "2024-01-01 00:00:00"
    last_execution_time := "2024-01-02 00:00:00"
    cpu_time_ms := 50
    elapsed_time_ms := 60
    logical_reads := 7
    logical_writes := 0
    query_text := "SELECT 1" }

/-- A log entry at capture instant `t` with the given CPU time and query
text, used by concrete scenarios. -/
def entryAt (t : Int) (cpu : Int) (txt : String) : Entry :=
  { captured_at := isoformat t
    execution_count := 1
    creation_time := "c"
    last_execution_time := "l"
    cpu_time_ms := cpu
    elapsed_time_ms := cpu
    logical_reads := 0
    logical_writes := 0
    query_text := txt }

/-- The three-record scenario for the time window: records captured 1, 25
and 48 hours before the reading instant. -/
def scenWindowLines : List LogLine :=
  [LogLine.good (entryAt (-3600) 10 "q1"),
   LogLine.good (entryAt (-90000) 10 "q2"),
   LogLine.good (entryAt (-172800) 10 "q3")]

/-- The three-record scenario for the CPU threshold: in-window records
with CPU times 50, 150 and 200 ms. -/
def scenCpuLines : List LogLine :=
  [LogLine.good (entryAt 0 50 "a"),
   LogLine.good (entryAt 0 150 "b"),
   LogLine.good (entryAt 0 200 "c")]

/-- A one-tick run used by the round-trip witness. -/
def sampleTicks : List (Int × Except String (List QueryRow)) :=
  [(5, Except.ok [sampleRow])]

/-- A two-tick run (instants 1 then 2) used by the monotonicity
witness. -/
def monoTicks : List (Int × Except String (List QueryRow)) :=
  [(1, Except.ok [sampleRow]), (2, Except.ok [sampleRow, sampleRow])]

/-- First record of the summarization scenario: CPU time 50 ms. -/
def scenSumA : Entry := entryAt 0 50 "SELECT A"

/-- Second record of the summarization scenario: same query text, CPU
time 150 ms. -/
def scenSumB : Entry := entryAt 10 150 "SELECT A"

/-- The per-record append loop of `capture_and_log`, summed up: a
successful tick appends exactly its records, in order, each as one good
line stamped with the tick timestamp. -/
theorem capture_and_log_ok_eq (t : Int) (qs : List QueryRow) (file : List LogLine) :
    capture_and_log t (Except.ok qs) file
      = file ++ qs.map (fun q => LogLine.good (mkEntry (isoformat t) q)) := by
  show qs.foldl (fun f q => f ++ [LogLine.good (mkEntry (isoformat t) q)]) file
      = file ++ qs.map (fun q => LogLine.good (mkEntry (isoformat t) q))
  induction qs generalizing file with
  | nil => simp
  | cons q qs ih => simp [List.foldl_cons, ih]

/-- One run of the loop appends exactly the lines of its ticks. -/
theorem runLoop_eq (ticks : List (Int × Except String (List QueryRow)))
    (file : List LogLine) :
    runLoop ticks file = file ++ producedLog ticks := by
  induction ticks generalizing file with
  | nil => simp [runLoop, producedLog]
  | cons p rest ih =>
    obtain ⟨t, src⟩ := p
    cases src with
    | error msg =>
      simp [runLoop, producedLog, tickLines] at ih ⊢
      simpa [capture_and_log] using ih file
    | ok qs =>
      simp only [runLoop, producedLog, tickLines, List.foldl_cons, List.map_cons,
        List.flatten_cons] at ih ⊢
      rw [ih, capture_and_log_ok_eq, List.append_assoc]

/-- On a file whose every line decodes, the reader loop succeeds and
returns exactly the kept entries, in file order. -/
theorem processLines_eq_filterMap (cutoff : Int) (searchText : Option String)
    (minCpuMs : Option Int) (lines : List LogLine)
    (h : ∀ l ∈ lines, (decodeLine l).isSome) :
    processLines cutoff searchText minCpuMs lines
      = Except.ok (lines.filterMap (lineVal cutoff searchText minCpuMs)) := by
  induction lines with
  | nil => rfl
  | cons l rest ih =>
    have hl : (decodeLine l).isSome := h l (List.mem_cons_self l rest)
    have hrest := ih (fun x hx => h x (List.mem_cons_of_mem l hx))
    cases l with
    | bad s => simp [decodeLine] at hl
    | good e =>
      cases hfe : fromisoformat e.captured_at with
      | none => simp [decodeLine, hfe] at hl
      | some t =>
        simp only [processLines, hfe, hrest, List.filterMap_cons, lineVal, decodeLine,
          Option.map_some]
        by_cases hk : keepEntry cutoff searchText minCpuMs e t <;> simp [hk]

/-- Every line the capture loop ever writes decodes back. -/
theorem producedLog_decodes (ticks : List (Int × Except String (List QueryRow))) :
    ∀ l ∈ producedLog ticks, (decodeLine l).isSome := by
  intro l hl
  rw [producedLog, List.mem_flatten] at hl
  obtain ⟨tl, htl, hltl⟩ := hl
  rw [List.mem_map] at htl
  obtain ⟨p, hp, rfl⟩ := htl
  obtain ⟨t, src⟩ := p
  cases src with
  | error msg => simp [tickLines] at hltl
  | ok qs =>
    simp only [tickLines] at hltl
    rw [List.mem_map] at hltl
    obtain ⟨q, hq, rfl⟩ := hltl
    simp [decodeLine, mkEntry, isoformat, fromisoformat]

/-- If some line of the file is not valid JSON, the reader loop raises. -/
theorem processLines_error_of_bad (cutoff : Int) (searchText : Option String)
    (minCpuMs : Option Int) (lines : List LogLine) (s : String)
    (hbad : LogLine.bad s ∈ lines) :
    ∃ err, processLines cutoff searchText minCpuMs lines = Except.error err := by
  induction lines with
  | nil => cases hbad
  | cons l rest ih =>
    cases l with
    | bad s₀ => exact ⟨ReadError.jsonDecode s₀, rfl⟩
    | good e =>
      have hrest : LogLine.bad s ∈ rest := by
        cases hbad with
        | tail _ h => exact h
      cases hfe : fromisoformat e.captured_at with
      | none => exact ⟨ReadError.badTimestamp, by simp [processLines, hfe]⟩
      | some t =>
        obtain ⟨err, herr⟩ := ih hrest
        exact ⟨err, by simp [processLines, hfe, herr]⟩

/-- C4: at a tick where the source accessor raises, `capture_and_log`
leaves the log file contents and line count unchanged, returns normally
(no exception reaches the caller), and the surrounding loop goes on to
process the remaining ticks exactly as if the failed tick had not
happened. -/
theorem capture_source_failure_atomic (t : Int) (msg : String) (file : List LogLine)
    (rest : List (Int × Except String (List QueryRow))) :
    capture_and_log t (Except.error msg) file = file ∧
    (capture_and_log t (Except.error msg) file).length = file.length ∧
    runLoop ((t, Except.error msg) :: rest) file = runLoop rest file :=
  ⟨rfl, rfl, rfl⟩

/-- C5: at a tick where the source accessor returns a list of records,
`capture_and_log` appends exactly one line per record — the new file is
the old file followed by one good line per record in order, and the line
count grows by exactly the number of records. -/
theorem capture_one_line_per_record (t : Int) (qs : List QueryRow) (file : List LogLine) :
    capture_and_log t (Except.ok qs) file
      = file ++ qs.map (fun q => LogLine.good (mkEntry (isoformat t) q)) ∧
    (capture_and_log t (Except.ok qs) file).length = file.length + qs.length := by
  refine ⟨capture_and_log_ok_eq t qs file, ?_⟩
  rw [capture_and_log_ok_eq]
  simp

/-- C8: when the log file does not exist, `read_query_history` returns an
empty list together with a console notice, for every combination of
parameters, and no exception propagates (the result is `Except.ok`). -/
theorem read_missing_file_empty (now hours_back : Int) (search_text : Option String)
    (min_cpu_ms : Option Int) :
    ∃ r, read_query_history now hours_back search_text min_cpu_ms none = Except.ok r ∧
      r.entries = [] ∧ r.console ≠ [] :=
  ⟨_, rfl, rfl, by simp [read_query_history]⟩

/-- C9: all records written within a single capture tick carry the
identical `captured_at` value, namely the ISO rendering of the one
timestamp taken before the per-record loop. -/
theorem capture_single_timestamp_per_tick (t : Int) (qs : List QueryRow)
    (file : List LogLine) (e : Entry)
    (he : LogLine.good e ∈ (capture_and_log t (Except.ok qs) file).drop file.length) :
    e.captured_at = isoformat t := by
  rw [capture_and_log_ok_eq, List.drop_left] at he
  rw [List.mem_map] at he
  obtain ⟨q, hq, heq⟩ := he
  cases heq
  rfl

/-- Concrete instantiation of `capture_single_timestamp_per_tick`: a tick
at instant 5 writing two records gives both the same `captured_at`. -/
theorem capture_single_timestamp_per_tick_witness :
    LogLine.good (mkEntry (isoformat 5) sampleRow)
        ∈ (capture_and_log 5 (Except.ok [sampleRow, sampleRow]) []).drop 0 ∧
    (mkEntry (isoformat 5) sampleRow).captured_at = isoformat 5 :=
  ⟨by rw [capture_and_log_ok_eq]; simp,
    capture_single_timestamp_per_tick 5 [sampleRow, sampleRow] []
      (mkEntry (isoformat 5) sampleRow) (by rw [capture_and_log_ok_eq]; simp)⟩

/-- C10: a log file containing a line that is not valid JSON makes
`read_query_history` raise — the parse error propagates to the caller
instead of being skipped; only the missing-file case is caught. -/
theorem read_malformed_line_raises (now hours_back : Int) (search_text : Option String)
    (min_cpu_ms : Option Int) (lines : List LogLine) (s : String)
    (hbad : LogLine.bad s ∈ lines) :
    ∃ err, read_query_history now hours_back search_text min_cpu_ms (some lines)
      = Except.error err := by
  obtain ⟨err, herr⟩ :=
    processLines_error_of_bad (now - hours_back * 3600) search_text min_cpu_ms lines s hbad
  exact ⟨err, by simp [read_query_history, herr]⟩

/-- Concrete instantiation of `read_malformed_line_raises` on a one-line
file holding a malformed line. -/
theorem read_malformed_line_raises_witness :
    LogLine.bad "oops" ∈ [LogLine.good (mkEntry (isoformat 0) sampleRow), LogLine.bad "oops"] ∧
    ∃ err, read_query_history 0 24 none none
      (some [LogLine.good (mkEntry (isoformat 0) sampleRow), LogLine.bad "oops"])
      = Except.error err :=
  ⟨by decide, read_malformed_line_raises 0 24 none none _ "oops" (by decide)⟩

/-- C2 (amended): with no text or CPU filter, `read_query_history` returns
exactly the records whose `captured_at` is at or after
`now - hours_back` — the window has no upper cutoff at the current
time. -/
theorem read_window_one_sided (now hours_back : Int) (lines : List LogLine)
    (hdec : ∀ l ∈ lines, (decodeLine l).isSome) :
    ∃ r, read_query_history now hours_back none none (some lines) = Except.ok r ∧
      r.entries = lines.filterMap (fun l =>
        match decodeLine l with
        | some p => if now - hours_back * 3600 ≤ p.2 then some p.1 else none
        | none => none) := by
  refine ⟨{ entries := lines.filterMap (lineVal (now - hours_back * 3600) none none)
            console := [] }, ?_, ?_⟩
  · simp [read_query_history, processLines_eq_filterMap _ _ _ _ hdec]
  · show List.filterMap _ _ = List.filterMap _ _
    congr 1
    funext l
    cases hl : decodeLine l with
    | none => simp [lineVal, hl]
    | some p =>
      by_cases hc : now - hours_back * 3600 ≤ p.2 <;>
        simp [lineVal, hl, keepEntry, searchPass, cpuPass, hc]

/-- Concrete instantiation of `read_window_one_sided`: with
`hours_back = 24`, of the records captured 1, 25 and 48 hours ago exactly
the first is returned. -/
theorem read_window_one_sided_witness :
    (∀ l ∈ scenWindowLines, (decodeLine l).isSome) ∧
    ∃ r, read_query_history 0 24 none none (some scenWindowLines) = Except.ok r ∧
      r.entries = [entryAt (-3600) 10 "q1"] := by
  obtain ⟨r, hr, hent⟩ := read_window_one_sided 0 24 scenWindowLines (by decide)
  exact ⟨by decide, r, hr, by rw [hent]; decide⟩

/-- C2 as literally stated is false: a record whose `captured_at` lies in
the future (one hour after the reading instant) is outside the trailing
24-hour window ending at the current time, yet the reader returns it —
the code only checks the lower cutoff. -/
theorem read_window_upper_bound_cex :
    read_query_history 0 24 none none (some [LogLine.good (entryAt 3600 10 "future")])
      = Except.ok { entries := [entryAt 3600 10 "future"], console := [] } ∧
    ¬ inWindow 0 24 3600 :=
  ⟨rfl, fun h => absurd h.2 (by decide)⟩

/-- C3 (amended): for every nonzero CPU threshold `m` and no text filter,
`read_query_history` returns exactly the in-window records whose
`cpu_time_ms` is at least `m`.  (A threshold of 0 is falsy in Python and
disables the filter, see the counterexample.) -/
theorem read_min_cpu_filter (now hours_back m : Int) (hm : m ≠ 0)
    (lines : List LogLine) (hdec : ∀ l ∈ lines, (decodeLine l).isSome) :
    ∃ r, read_query_history now hours_back none (some m) (some lines) = Except.ok r ∧
      r.entries = lines.filterMap (fun l =>
        match decodeLine l with
        | some p =>
          if now - hours_back * 3600 ≤ p.2 ∧ m ≤ p.1.cpu_time_ms then some p.1 else none
        | none => none) := by
  refine ⟨{ entries := lines.filterMap (lineVal (now - hours_back * 3600) none (some m))
            console := [] }, ?_, ?_⟩
  · simp [read_query_history, processLines_eq_filterMap _ _ _ _ hdec]
  · show List.filterMap _ _ = List.filterMap _ _
    congr 1
    funext l
    cases hl : decodeLine l with
    | none => simp [lineVal, hl]
    | some p =>
      by_cases hc : now - hours_back * 3600 ≤ p.2 <;>
        by_cases hcpu : m ≤ p.1.cpu_time_ms <;>
          simp [lineVal, hl, keepEntry, searchPass, cpuPass, hc, hcpu, hm]

/-- Concrete instantiation of `read_min_cpu_filter`: with
`min_cpu_ms = 100` against CPU times [50, 150, 200], exactly the records
with 150 and 200 are returned. -/
theorem read_min_cpu_filter_witness :
    (100 : Int) ≠ 0 ∧ (∀ l ∈ scenCpuLines, (decodeLine l).isSome) ∧
    ∃ r, read_query_history 0 24 none (some 100) (some scenCpuLines) = Except.ok r ∧
      r.entries = [entryAt 0 150 "b", entryAt 0 200 "c"] := by
  obtain ⟨r, hr, hent⟩ := read_min_cpu_filter 0 24 100 (by decide) scenCpuLines (by decide)
  exact ⟨by decide, by decide, r, hr, by rw [hent]; decide⟩

/-- C3 as literally stated is false at the threshold 0: `min_cpu_ms = 0`
is falsy in Python, so the filter is skipped and a record with negative
`cpu_time_ms` (below the threshold) is still returned. -/
theorem read_min_cpu_zero_cex :
    read_query_history 0 24 none (some 0) (some [LogLine.good (entryAt 0 (-1) "neg")])
      = Except.ok { entries := [entryAt 0 (-1) "neg"], console := [] } ∧
    (entryAt 0 (-1) "neg").cpu_time_ms < 0 :=
  ⟨rfl, by decide⟩

/-- C1: every record written by the capture loop — at any tick of any
run — is returned by the reader whenever the window cutoff is at or
before the record's capture instant and no text or CPU filter is given;
the returned entry is the very record written (every field equal), and
its `captured_at` parses back to the instant at which it was captured. -/
theorem capture_read_roundtrip (ticks : List (Int × Except String (List QueryRow)))
    (t : Int) (qs : List QueryRow) (q : QueryRow) (now hours_back : Int)
    (htick : (t, Except.ok qs) ∈ ticks) (hq : q ∈ qs)
    (hcut : now - hours_back * 3600 ≤ t) :
    ∃ r, read_query_history now hours_back none none (some (runLoop ticks []))
        = Except.ok r ∧
      mkEntry (isoformat t) q ∈ r.entries ∧
      fromisoformat (mkEntry (isoformat t) q).captured_at = some t := by
  have hfile : runLoop ticks [] = producedLog ticks := by
    rw [runLoop_eq, List.nil_append]
  have hdec := producedLog_decodes ticks
  refine ⟨{ entries := (producedLog ticks).filterMap
              (lineVal (now - hours_back * 3600) none none)
            console := [] }, ?_, ?_, rfl⟩
  · rw [hfile]
    simp [read_query_history, processLines_eq_filterMap _ _ _ _ hdec]
  · apply List.mem_filterMap.mpr
    refine ⟨LogLine.good (mkEntry (isoformat t) q), ?_, ?_⟩
    · rw [producedLog, List.mem_flatten]
      refine ⟨tickLines (t, Except.ok qs), List.mem_map_of_mem _ htick, ?_⟩
      simp only [tickLines]
      exact List.mem_map_of_mem _ hq
    · simp [lineVal, decodeLine, mkEntry, isoformat, fromisoformat, keepEntry,
        searchPass, cpuPass, hcut]

/-- Concrete instantiation of `capture_read_roundtrip` on a one-tick run
captured at instant 5, read back with a 24-hour window. -/
theorem capture_read_roundtrip_witness :
    ((5 : Int), Except.ok [sampleRow]) ∈ sampleTicks ∧ sampleRow ∈ [sampleRow] ∧
    (5 : Int) - 24 * 3600 ≤ 5 ∧
    ∃ r, read_query_history 5 24 none none (some (runLoop sampleTicks []))
        = Except.ok r ∧
      mkEntry (isoformat 5) sampleRow ∈ r.entries ∧
      fromisoformat (mkEntry (isoformat 5) sampleRow).captured_at = some 5 :=
  ⟨by simp [sampleTicks], by simp, by decide,
    capture_read_roundtrip sampleTicks 5 [sampleRow] sampleRow 5 24
      (by simp [sampleTicks]) (by simp) (by decide)⟩

/-- The timestamps recorded by one tick are the tick instant, once per
record. -/
theorem fileTimes_tickLines (p : Int × Except String (List QueryRow)) :
    fileTimes (tickLines p) = tickTimes p := by
  obtain ⟨t, src⟩ := p
  cases src with
  | error msg => rfl
  | ok qs =>
    induction qs with
    | nil => rfl
    | cons q rest ih =>
      simpa [fileTimes, tickLines, tickTimes, List.filterMap_cons, decodeLine,
        mkEntry, isoformat, fromisoformat] using ih

/-- The timestamps of a whole run, tick block by tick block. -/
theorem fileTimes_producedLog (ticks : List (Int × Except String (List QueryRow))) :
    fileTimes (producedLog ticks) = (ticks.map tickTimes).flatten := by
  rw [producedLog, fileTimes, List.filterMap_flatten, List.map_map]
  exact congrArg List.flatten (List.map_congr_left (fun p _ => fileTimes_tickLines p))

/-- Every timestamp of a tick block is the tick instant. -/
theorem mem_tickTimes {x : Int} {p : Int × Except String (List QueryRow)}
    (h : x ∈ tickTimes p) : x = p.1 := by
  obtain ⟨t, src⟩ := p
  cases src with
  | error msg => cases h
  | ok qs =>
    obtain ⟨q, hq, hfa⟩ := List.mem_map.mp h
    exact hfa.symm

/-- Every timestamp of a run comes from some tick instant. -/
theorem mem_times_flatten {x : Int} {ticks : List (Int × Except String (List QueryRow))}
    (h : x ∈ (ticks.map tickTimes).flatten) : x ∈ ticks.map Prod.fst := by
  rw [List.mem_flatten] at h
  obtain ⟨tl, htl, hx⟩ := h
  obtain ⟨p, hp, rfl⟩ := List.mem_map.mp htl
  rw [mem_tickTimes hx]
  exact List.mem_map_of_mem Prod.fst hp

/-- A tick block is trivially monotone: all its timestamps coincide. -/
theorem pairwise_tickTimes (p : Int × Except String (List QueryRow)) :
    (tickTimes p).Pairwise (fun a b => a ≤ b) := by
  obtain ⟨t, src⟩ := p
  cases src with
  | error msg => exact List.Pairwise.nil
  | ok qs =>
    induction qs with
    | nil => exact List.Pairwise.nil
    | cons q rest ih =>
      refine List.Pairwise.cons (fun y hy => ?_) ih
      obtain ⟨a, ha, hfa⟩ := List.mem_map.mp hy
      exact le_of_eq hfa

/-- C6: across a run of the capture loop whose tick instants are
non-decreasing (wall-clock time moves forward between ticks), the
`captured_at` values appended to the log are monotonically
non-decreasing in file order. -/
theorem captured_at_monotone (ticks : List (Int × Except String (List QueryRow)))
    (h : (ticks.map Prod.fst).Pairwise (fun a b => a ≤ b)) :
    (fileTimes (runLoop ticks [])).Pairwise (fun a b => a ≤ b) := by
  rw [runLoop_eq, List.nil_append, fileTimes_producedLog]
  induction ticks with
  | nil => exact List.Pairwise.nil
  | cons p rest ih =>
    rw [List.map_cons, List.flatten_cons]
    rw [List.map_cons, List.pairwise_cons] at h
    apply List.pairwise_append.mpr
    refine ⟨pairwise_tickTimes p, ih h.2, ?_⟩
    intro x hx y hy
    rw [mem_tickTimes hx]
    exact h.1 y (mem_times_flatten hy)

/-- Concrete instantiation of `captured_at_monotone` on a two-tick run. -/
theorem captured_at_monotone_witness :
    (monoTicks.map Prod.fst).Pairwise (fun a b => a ≤ b) ∧
    (fileTimes (runLoop monoTicks [])).Pairwise (fun a b => a ≤ b) :=
  ⟨by decide, captured_at_monotone monoTicks (by decide)⟩

/-- Inserting into the group list leaves the key order unchanged when the
key is present and appends the key at the end otherwise. -/
theorem insertGroup_map_fst (gs : List (String × List Entry)) (key : String) (e : Entry) :
    (insertGroup gs key e).map Prod.fst
      = if key ∈ gs.map Prod.fst then gs.map Prod.fst else gs.map Prod.fst ++ [key] := by
  induction gs with
  | nil => simp [insertGroup]
  | cons g rest ih =>
    by_cases h : g.1 = key
    · simp [insertGroup, h]
    · by_cases hk : key ∈ rest.map Prod.fst <;>
        simp [insertGroup, h, ih, hk, Ne.symm h]

/-- Inserting an entry appends it to its own group and leaves every other
group untouched, assuming the group keys are distinct and the function
`fil` describes the current groups. -/
theorem insertGroup_groups (gs : List (String × List Entry)) (key : String) (e : Entry)
    (nd : (gs.map Prod.fst).Nodup) (fil : String → List Entry)
    (hfil : ∀ g ∈ gs, g.2 = fil g.1)
    (hnew : key ∉ gs.map Prod.fst → fil key = []) :
    ∀ g ∈ insertGroup gs key e,
      g.2 = if g.1 = key then fil g.1 ++ [e] else fil g.1 := by
  induction gs with
  | nil =>
    intro g hg
    simp only [insertGroup, List.mem_singleton] at hg
    subst hg
    simp [hnew (by simp)]
  | cons g₀ rest ih =>
    intro g hg
    rw [List.map_cons, List.nodup_cons] at nd
    by_cases h : g₀.1 = key
    · rw [insertGroup, if_pos h] at hg
      rcases List.mem_cons.mp hg with rfl | hgr
      · simpa [h] using congrArg (· ++ [e]) (hfil g₀ (List.mem_cons_self g₀ rest))
      · have hne : g.1 ≠ key := by
          intro hk
          exact nd.1 (h ▸ hk ▸ List.mem_map_of_mem Prod.fst hgr)
        rw [if_neg hne]
        exact hfil g (List.mem_cons_of_mem g₀ hgr)
    · rw [insertGroup, if_neg h] at hg
      rcases List.mem_cons.mp hg with rfl | hgr
      · rw [if_neg h]
        exact hfil g (List.mem_cons_self g rest)
      · refine ih nd.2 (fun x hx => hfil x (List.mem_cons_of_mem g₀ hx)) ?_ g hgr
        intro hk
        refine hnew ?_
        rw [List.map_cons, List.mem_cons, not_or]
        exact ⟨Ne.symm h, hk⟩

/-- The accumulated group list of `summarize_queries`: its keys are the
distinct query patterns in first-occurrence order, and each group holds
exactly the records with that pattern, in log order. -/
theorem buildGroups_spec (qs : List Entry) :
    ((buildGroups qs).map Prod.fst).Nodup ∧
    (∀ g ∈ buildGroups qs, g.2 = qs.filter (fun x => queryKey x = g.1)) ∧
    (∀ k, k ∈ (buildGroups qs).map Prod.fst ↔ k ∈ qs.map queryKey) := by
  induction qs using List.reverseRecOn with
  | nil => exact ⟨List.nodup_nil, by simp [buildGroups], by simp [buildGroups]⟩
  | append_singleton qs q ih =>
    obtain ⟨nd, hfil, hmem⟩ := ih
    have hstep : buildGroups (qs ++ [q]) = insertGroup (buildGroups qs) (queryKey q) q := by
      rw [buildGroups, List.foldl_append]
      rfl
    have hnew : queryKey q ∉ (buildGroups qs).map Prod.fst →
        qs.filter (fun x => queryKey x = queryKey q) = [] := by
      intro hk
      rw [List.filter_eq_nil_iff]
      intro x hx hkey
      have hxq : queryKey x = queryKey q := by simpa using hkey
      exact hk ((hmem (queryKey q)).mpr (hxq ▸ List.mem_map_of_mem queryKey hx))
    refine ⟨?_, ?_, ?_⟩
    · rw [hstep, insertGroup_map_fst]
      by_cases hk : queryKey q ∈ (buildGroups qs).map Prod.fst
      · simpa [hk] using nd
      · simp [hk, List.nodup_append, nd]
    · intro g hg
      rw [hstep] at hg
      have hins := insertGroup_groups (buildGroups qs) (queryKey q) q nd
        (fun k => qs.filter (fun x => queryKey x = k)) hfil hnew g hg
      rw [List.filter_append]
      by_cases hgk : g.1 = queryKey q
      · rw [if_pos hgk] at hins
        rw [hins]
        simp [hgk]
      · rw [if_neg hgk] at hins
        rw [hins]
        have hqg : ¬ queryKey q = g.1 := fun hh => hgk hh.symm
        simp [hqg]
    · intro k
      rw [hstep, insertGroup_map_fst, List.map_append, List.mem_append]
      by_cases hk : queryKey q ∈ (buildGroups qs).map Prod.fst
      · rw [if_pos hk, hmem]
        constructor
        · exact Or.inl
        · rintro (hkq | hkq)
          · exact hkq
          · simp only [List.map_cons, List.map_nil, List.mem_singleton] at hkq
            rw [hkq]
            exact (hmem _).mp hk
      · rw [if_neg hk, List.mem_append]
        simp [hmem]

/-- Inserting into the sorted group list is a permutation. -/
theorem insertDesc_perm (g : String × List Entry) (l : List (String × List Entry)) :
    (insertDesc g l).Perm (g :: l) := by
  induction l with
  | nil => exact List.Perm.refl _
  | cons h t ih =>
    by_cases hc : g.2.length < h.2.length
    · rw [insertDesc, if_pos hc]
      exact (ih.cons h).trans (List.Perm.swap g h t)
    · rw [insertDesc, if_neg hc]

/-- The stable sort is a permutation of the group list. -/
theorem sortGroups_perm (l : List (String × List Entry)) : (sortGroups l).Perm l := by
  induction l with
  | nil => exact List.Perm.refl _
  | cons g t ih => exact (insertDesc_perm g (sortGroups t)).trans (ih.cons g)

/-- Inserting into a list sorted by descending size keeps it sorted. -/
theorem insertDesc_sorted (g : String × List Entry) (l : List (String × List Entry))
    (hl : l.Pairwise (fun a b => b.2.length ≤ a.2.length)) :
    (insertDesc g l).Pairwise (fun a b => b.2.length ≤ a.2.length) := by
  induction l with
  | nil => simp [insertDesc]
  | cons h t ih =>
    rw [List.pairwise_cons] at hl
    by_cases hc : g.2.length < h.2.length
    · rw [insertDesc, if_pos hc, List.pairwise_cons]
      refine ⟨fun b hb => ?_, ih hl.2⟩
      rcases List.mem_cons.mp ((insertDesc_perm g t).mem_iff.mp hb) with rfl | hbt
      · exact le_of_lt hc
      · exact hl.1 b hbt
    · push_neg at hc
      rw [insertDesc, if_neg (not_lt.mpr hc), List.pairwise_cons]
      refine ⟨fun b hb => ?_, List.pairwise_cons.mpr ⟨hl.1, hl.2⟩⟩
      rcases List.mem_cons.mp hb with rfl | hbt
      · exact hc
      · exact le_trans (hl.1 b hbt) hc

/-- The sorted group list is sorted by descending size. -/
theorem sortGroups_sorted (l : List (String × List Entry)) :
    (sortGroups l).Pairwise (fun a b => b.2.length ≤ a.2.length) := by
  induction l with
  | nil => exact List.Pairwise.nil
  | cons g t ih => exact insertDesc_sorted g (sortGroups t) ih

/-- C7: on a non-empty record list, `summarize_queries` groups the
records by the first 100 characters of their query text and reports the
total record count, the number of distinct patterns, and — for the top
(at most) 10 groups in descending order of frequency — each group's
record count, total CPU time, and average CPU time
(count times average equals total). -/
theorem summarize_queries_reports (qs : List Entry) (h : qs ≠ []) :
    ∃ s, summarize_queries qs = some s ∧
      s.totalExecutions = qs.length ∧
      s.uniquePatterns = (qs.map queryKey).toFinset.card ∧
      s.topGroups.length = min 10 (buildGroups qs).length ∧
      s.topGroups.Pairwise (fun a b => b.execCount ≤ a.execCount) ∧
      ∀ g ∈ s.topGroups,
        0 < g.execCount ∧
        g.execCount = (qs.filter (fun x => queryKey x = g.pattern)).length ∧
        g.totalCpu = ((qs.filter (fun x => queryKey x = g.pattern)).map
          (fun x => x.cpu_time_ms)).sum ∧
        (g.execCount : ℚ) * g.avgCpu = (g.totalCpu : ℚ) := by
  obtain ⟨nd, hfil, hmem⟩ := buildGroups_spec qs
  have hne : qs.isEmpty = false := by
    cases qs with
    | nil => exact absurd rfl h
    | cons a l => rfl
  refine ⟨{ totalExecutions := qs.length
            uniquePatterns := (buildGroups qs).length
            topGroups := ((sortGroups (buildGroups qs)).take 10).map groupStat },
    by simp [summarize_queries, hne], rfl, ?_, ?_, ?_, ?_⟩
  · have h1 : ((buildGroups qs).map Prod.fst).toFinset = (qs.map queryKey).toFinset := by
      ext k
      simp only [List.mem_toFinset]
      exact hmem k
    calc (buildGroups qs).length
        = ((buildGroups qs).map Prod.fst).length := (List.length_map _ _).symm
      _ = ((buildGroups qs).map Prod.fst).toFinset.card :=
          (List.toFinset_card_of_nodup nd).symm
      _ = (qs.map queryKey).toFinset.card := by rw [h1]
  · rw [List.length_map, List.length_take, (sortGroups_perm _).length_eq]
  · rw [List.pairwise_map]
    exact List.Pairwise.sublist (List.take_sublist _ _) (sortGroups_sorted _)
  · intro g hg
    obtain ⟨gp, hgp, rfl⟩ := List.mem_map.mp hg
    have hgb : gp ∈ buildGroups qs :=
      (sortGroups_perm _).mem_iff.mp ((List.take_sublist _ _).subset hgp)
    have hfg := hfil gp hgb
    have e1 : (groupStat gp).execCount = gp.2.length := rfl
    have e2 : (groupStat gp).pattern = gp.1 := rfl
    have e3 : (groupStat gp).totalCpu = (gp.2.map (fun x => x.cpu_time_ms)).sum := rfl
    have e4 : (groupStat gp).avgCpu
        = (((gp.2.map (fun x => x.cpu_time_ms)).sum : Int) : ℚ) / (gp.2.length : ℚ) := rfl
    have hkey : gp.1 ∈ qs.map queryKey := (hmem gp.1).mp (List.mem_map_of_mem Prod.fst hgb)
    have hpos : 0 < gp.2.length := by
      rw [hfg]
      obtain ⟨x, hx, hxk⟩ := List.mem_map.mp hkey
      have hxf : x ∈ qs.filter (fun y => queryKey y = gp.1) :=
        List.mem_filter.mpr ⟨hx, by simp [hxk]⟩
      exact List.length_pos.mpr (List.ne_nil_of_mem hxf)
    refine ⟨e1 ▸ hpos, ?_, ?_, ?_⟩
    · rw [e1, e2, hfg]
    · rw [e3, e2, hfg]
    · rw [e1, e3, e4]
      have hc : ((gp.2.length : ℚ)) ≠ 0 :=
        ne_of_gt (by exact_mod_cast hpos)
      rw [mul_comm, div_mul_cancel₀ _ hc]

set_option maxRecDepth 8000 in
/-- Concrete instantiation of `summarize_queries_reports` (scenario 2):
two records sharing the first 100 characters of their query text with CPU
times 50 and 150 form one group reported with count 2, total CPU 200 and
average CPU 100. -/
theorem summarize_queries_reports_witness :
    ([scenSumA, scenSumB] ≠ ([] : List Entry)) ∧
    ∃ s, summarize_queries [scenSumA, scenSumB] = some s ∧
      s.totalExecutions = 2 ∧ s.uniquePatterns = 1 ∧
      s.topGroups.map GroupStat.execCount = [2] ∧
      s.topGroups.map GroupStat.totalCpu = [200] ∧
      s.topGroups.map GroupStat.avgCpu = [100] := by
  obtain ⟨s, hs, h1, h2, h3, h4, h5⟩ :=
    summarize_queries_reports [scenSumA, scenSumB] (by simp)
  have hv : summarize_queries [scenSumA, scenSumB]
      = some { totalExecutions := 2
               uniquePatterns := 1
               topGroups := [groupStat (queryKey scenSumA, [scenSumA, scenSumB])] } := rfl
  rw [hv] at hs
  obtain rfl := Option.some.inj hs
  refine ⟨by simp, _, hv, rfl, rfl, rfl, rfl, ?_⟩
  simp only [List.map_cons, List.map_nil]
  norm_num [groupStat, queryKey, scenSumA, scenSumB, entryAt]

end QueryHistory
